import Mathlib

/-!
Verification of the scheduling core of the CPU snippets node
(src/plugins/intel_cpu/src/nodes/subgraph.cpp): shape normalization,
execution-domain optimization, offset planning and parallel dispatch.
Shapes are modelled as lists of extents (outermost first); all shapes the
claims are about are static, so extents are natural numbers.
-/

namespace Snippets

/-- The fixed 6D scheduler rank (rank6D). -/
def rank6D : Nat := 6

/-- Maximum tile rank supported by the tile scheduler (maxTileRank). -/
def maxTileRank : Nat := 2

/-- sizeof(float): the tile increments are computed for FP32 data, whose element
size is 4 bytes (the node forces Precision::FP32). -/
def sizeof_float : Nat := 4

/-- minimalJitWorkAmount in findDimsToCollapse. -/
def minimalJitWorkAmount : Nat := 256

/-- Snippet::prependWithOnes: left-pad a shape with leading ones up to the given
rank; a shape whose rank already reaches the target is returned unchanged. -/
def prependWithOnes (dims : List Nat) (rank : Nat) : List Nat :=
  if rank ≤ dims.length then dims
  else List.replicate (rank - dims.length) 1 ++ dims

/-- Broadcast-mask entry of Snippet::calcJITParams: an operand counts as
broadcasted when the master innermost extent is not 1 while the operand's
innermost extent is 1. -/
def bmaskOf (master dims : List Nat) : Bool :=
  master.getLastD 0 != 1 && dims.getLastD 0 == 1

/-- offset_calculation inside Snippet::calcJITParams. The source walks the
offset_rank = rank - 1 outer positions from the innermost outwards with an
accumulator k that starts at dims.back() and is multiplied by every extent it
passes, so at position i the accumulator equals the product of the operand
extents inner to i; position i receives that product when the operand extent
equals the master extent there, and 0 otherwise. The innermost dimension
carries no planned offset. -/
def offset_calculation : List Nat → List Nat → List Nat
  | _ :: [], _ => []
  | m :: ms, d :: ds => (if d = m then ds.prod else 0) :: offset_calculation ms ds
  | _, _ => []

/-- One operand's planned data offsets: the raw offsets, zeroed wherever the
master extent is 1 (the emitter never applies those), then scaled by the
element size. The source stores all rows in one flat row-major vector; rows
are kept separate here. -/
def data_offsets_row (master dims : List Nat) (dataSize : Nat) : List Nat :=
  List.zipWith (fun off m => (if m = 1 then 0 else off) * dataSize)
    (offset_calculation master dims) (master.take (master.length - 1))

/-- Vector-tile pointer increment of one operand on the dynamic path:
isa_num_lanes * sizeof(float) * not_broadcasted. -/
def vector_tile_inc_of (lanes : Nat) (broadcasted : Bool) : Nat :=
  lanes * sizeof_float * (if broadcasted then 0 else 1)

/-- Scalar-tile pointer increment of one operand on the dynamic path:
sizeof(float) * not_broadcasted. -/
def scalar_tile_inc_of (broadcasted : Bool) : Nat :=
  sizeof_float * (if broadcasted then 0 else 1)

/-- Tile-boundary (scheduler) offset of one input operand in the tileRank = 2
branch of Snippet::calcJITParams; off is the operand's outermost planned data
offset, i.e. the last entry of its data-offset row. -/
def sch_offset_in (master dims : List Nat) (dataSize : Nat) : Int :=
  if (data_offsets_row master dims dataSize).getLastD 0 > dataSize then 0
  else if (data_offsets_row master dims dataSize).getLastD 0 = dataSize then
    (if bmaskOf master dims then (dataSize : Int) else 0)
  else if dims.getD (dims.length - 2) 0 ≠ master.getD (master.length - 2) 0 ∧
          dims.getLastD 0 ≠ 1 then
    -((master.getLastD 0 : Int) * dataSize)
  else 0

/-- Tile-boundary (scheduler) offset of one output operand in the tileRank = 2
branch: its outermost planned data offset minus one full master row. -/
def sch_offset_out (master dims : List Nat) (dataSize : Nat) : Int :=
  ((data_offsets_row master dims dataSize).getLastD 0 : Int)
    - (master.getLastD 0 : Int) * dataSize

/-- The scheduler-offset vector of Snippet::calcJITParams: all zeros unless
tileRank is greater than 1. -/
def sch_offsets_calc (master : List Nat) (ins outs : List (List Nat))
    (dataSize tileRank : Nat) : List Int :=
  if tileRank > 1 then
    ins.map (fun d => sch_offset_in master d dataSize)
      ++ outs.map (fun d => sch_offset_out master d dataSize)
  else List.replicate (ins.length + outs.length) 0

structure JITParams where
  bmask : List Bool
  vector_tile_increments : List Nat
  scalar_tile_increments : List Nat
  data_offsets : List (List Nat)
  scheduler_offsets : List Int
deriving Repr, DecidableEq

/-- Snippet::calcJITParams: broadcast mask over inputs then outputs, the tile
increments (produced only on the dynamic path), the per-operand data offsets
and the scheduler offsets. -/
def calcJITParams (master : List Nat) (ins outs : List (List Nat))
    (dataSize lanes : Nat) (isDynamic : Bool) (tileRank : Nat) : JITParams :=
  let ios := ins ++ outs
  let bmask := ios.map (bmaskOf master)
  { bmask := bmask
    vector_tile_increments :=
      if isDynamic then bmask.map (vector_tile_inc_of lanes) else []
    scalar_tile_increments :=
      if isDynamic then bmask.map scalar_tile_inc_of else []
    data_offsets := ios.map (fun d => data_offsets_row master d dataSize)
    scheduler_offsets := sch_offsets_calc master ins outs dataSize tileRank }

structure OptState where
  ins : List (List Nat)
  outs : List (List Nat)
  domain : List Nat
  tileRank : Nat
  collapsedDims : Nat
  cur : Nat
deriving Repr, DecidableEq

/-- collapseLastDims of Snippet::optimizeExecDomain: the innermost extent is
multiplied by the c next-outer extents, the remaining extents shift inwards and
the freed leading positions are filled with 1. The source throws when c is at
least rank - 1; that, and the out-of-bounds walk a rank-0 shape would make,
is modelled as none. -/
def collapseLastDims (dims : List Nat) (c : Nat) : Option (List Nat) :=
  if dims.length ≤ c + 1 then none
  else some (List.replicate c 1 ++ dims.take (dims.length - c - 1)
    ++ [(dims.drop (dims.length - c - 1)).foldl (fun a b => a * b) 1])

/-- The canCollapse test of findDimsToCollapse, negated: some input shape has
extent 1 on exactly one of its two innermost dimensions. -/
def hasTailMismatch (ins : List (List Nat)) : Bool :=
  ins.any (fun d =>
    (d.getD (d.length - 1 - 1) 0 != 1 && d.getD (d.length - 1) 0 == 1) ||
    (d.getD (d.length - 1 - 1) 0 == 1 && d.getD (d.length - 1) 0 != 1))

/-- The while-loop of findDimsToCollapse, with explicit fuel (the loop makes at
most rank + maxTileRank steps, since every pass either collapses a dimension,
raises the tile rank, or stops). nthr is parallel_get_max_threads(). -/
def optLoop (nthr fullWork : Nat) : Nat → OptState → Option OptState
  | 0, _ => none
  | fuel + 1, s =>
    if ¬(s.cur < minimalJitWorkAmount ∧ s.cur < fullWork) then some s
    else if s.domain.length < s.collapsedDims + 2 then some s
    else
      if nthr ≤ fullWork / (s.cur * s.domain.getD (s.domain.length - 2) 1) then
        if hasTailMismatch s.ins then
          if s.tileRank < maxTileRank then
            optLoop nthr fullWork fuel
              { s with
                  tileRank := s.tileRank + 1
                  cur := s.cur * s.domain.getD (s.domain.length - 2) 1 }
          else some { s with cur := s.cur * s.domain.getD (s.domain.length - 2) 1 }
        else
          match s.ins.mapM (collapseLastDims · 1), s.outs.mapM (collapseLastDims · 1),
                collapseLastDims s.domain 1 with
          | some ins2, some outs2, some dom2 =>
            optLoop nthr fullWork fuel
              { ins := ins2, outs := outs2, domain := dom2, tileRank := s.tileRank,
                collapsedDims := s.collapsedDims + 1,
                cur := s.cur * s.domain.getD (s.domain.length - 2) 1 }
          | _, _, _ => none
      else some s

/-- Snippet::optimizeExecDomain: run findDimsToCollapse on the master shape;
currentJitWorkAmount starts as the innermost domain extent. -/
def optimizeExecDomain (ins outs : List (List Nat)) (domain : List Nat)
    (tileRank nthr fullWork : Nat) : Option OptState :=
  optLoop nthr fullWork (domain.length + maxTileRank + 1)
    { ins := ins, outs := outs, domain := domain, tileRank := tileRank,
      collapsedDims := 0, cur := domain.getLastD 0 }

/-- Modelled from the spec: the splitter of the parallel-execution primitive
(ie_parallel.hpp, not under src) statically partitions a linear work amount
into contiguous per-thread index ranges, an even split with the remainder
going to low-index threads; returns a thread's half-open range. -/
def splitter (n nthr ithr : Nat) : Nat × Nat :=
  (ithr * (n / nthr) + min ithr (n % nthr),
   ithr * (n / nthr) + min ithr (n % nthr) + n / nthr
     + (if ithr < n % nthr then 1 else 0))

/-- Digits of the flat index, least-significant radix first: the source loop of
Snippet::schedule_nt runs j from size-2 down to 0, taking tmp mod work_size[j]
and dividing tmp by it. -/
def decodeRev : List Nat → Nat → List Nat
  | [], _ => []
  | r :: rs, t => (t % r) :: decodeRev rs (t / r)

/-- The index vector Snippet::schedule_nt builds for one flat index: the
division loop's digits presented outermost first; the innermost work_size
entry takes no part in the harness indexes. -/
def ntIndexes (work_size : List Nat) (iwork : Nat) : List Nat :=
  (decodeRev work_size.dropLast.reverse iwork).reverse

/-- All kernel-call index vectors issued by Snippet::schedule_nt, thread by
thread in thread order and, within a thread, in increasing flat-index order. -/
def schedule_nt_visited (work_size : List Nat) (harnessWorkAmount nthr : Nat) :
    List (List Nat) :=
  (List.range nthr).flatMap (fun ithr =>
    ((List.range' (splitter harnessWorkAmount nthr ithr).1
        ((splitter harnessWorkAmount nthr ithr).2
          - (splitter harnessWorkAmount nthr ithr).1)).map (ntIndexes work_size)))

/-- Mixed-radix digit vector, outermost radix first: the digit at a position is
the flat index divided by the product of the inner radices, modulo the radix. -/
def mixedRadix : List Nat → Nat → List Nat
  | [], _ => []
  | r :: rs, t => (t / rs.prod) % r :: mixedRadix rs t

/-- Row-major enumeration of every coordinate of a rectangular domain. -/
def allCoords : List Nat → List (List Nat)
  | [] => [[]]
  | r :: rs => (List.range r).flatMap (fun d => (allCoords rs).map (fun c => d :: c))

/-- Modelled from the spec: parallel_for5d (ie_parallel.hpp, not under src)
issues exactly one kernel call per coordinate tuple of the five-dimensional
harness domain; schedule_6d and schedule_6d_dynamic differ only in the
per-thread call_args copy, not in the coordinates visited. -/
def schedule_6d_visited (dom : List Nat) : List (List Nat) :=
  allCoords (dom.take 5)

inductive ExecError where
  | noOptimizedImpl
  | unsupportedDynamicRank
deriving Repr, DecidableEq

structure ExecConfig where
  hasKernel : Bool
  canUseOptimizedImpl : Bool
  isDynamic : Bool
  tensorRank : Nat
  exec_domain : List Nat
  harnessWorkAmount : Nat
  nthr : Nat
deriving Repr, DecidableEq

/-- Snippet::execute: the kernel-call index vectors issued, paired with the
error raised, if any. Both throw sites of the source (null schedule pointer or
no optimized implementation; dynamic tensor rank different from rank6D) run
before any scheduling routine is entered. -/
def executeTrace (s : ExecConfig) : List (List Nat) × Option ExecError :=
  if !s.hasKernel || !s.canUseOptimizedImpl then ([], some .noOptimizedImpl)
  else if s.isDynamic then
    if s.tensorRank ≠ rank6D then ([], some .unsupportedDynamicRank)
    else (schedule_6d_visited s.exec_domain, none)
  else if s.tensorRank = rank6D then (schedule_6d_visited s.exec_domain, none)
  else (schedule_nt_visited s.exec_domain s.harnessWorkAmount s.nthr, none)

/-- std::vector::resize(maxTileRank, 1) applied to the persistent
scheduler_work_amounts member: truncate to maxTileRank entries, or extend
with ones. -/
def resizeWorkAmounts (prev : List Nat) : List Nat :=
  if maxTileRank ≤ prev.length then prev.take maxTileRank
  else prev ++ List.replicate (maxTileRank - prev.length) 1

/-- The trailing loop of Snippet::prepareParams, walking exec_domain and
scheduler_work_amounts from their ends for tileRank steps: divide the harness
work amount by the extent, move the extent into the scheduler work amounts,
and replace it by 1 in the domain. Both lists are passed reversed, matching
the rbegin traversal; the loop never overruns since tileRank is at most
maxTileRank and both vectors have at least maxTileRank entries. -/
def prepTailLoopRev : Nat → List Nat → List Nat → Nat → List Nat × List Nat × Nat
  | 0, execRev, schedRev, h => (execRev, schedRev, h)
  | i + 1, e :: er, _ :: sr, h =>
    let rest := prepTailLoopRev i er sr (h / e)
    (1 :: rest.1, e :: rest.2.1, rest.2.2)
  | _ + 1, execRev, schedRev, h => (execRev, schedRev, h)

structure PrepTail where
  exec_domain : List Nat
  scheduler_work_amounts : List Nat
  harnessWorkAmount : Nat
deriving Repr, DecidableEq

/-- End of Snippet::prepareParams: resize the persistent scheduler work amounts
to maxTileRank entries, then fold the trailing tileRank extents of the
execution domain into them, dividing the harness work amount accordingly. -/
def prepareParamsTail (prevSched exec_domain : List Nat)
    (fullWorkAmount tileRank : Nat) : PrepTail :=
  let r := prepTailLoopRev tileRank exec_domain.reverse
    (resizeWorkAmounts prevSched).reverse fullWorkAmount
  { exec_domain := r.1.reverse, scheduler_work_amounts := r.2.1.reverse,
    harnessWorkAmount := r.2.2 }

/-! ## General helper lemmas -/

theorem getD_map_of_lt {α β : Type} (f : α → β) (l : List α) (i : Nat)
    (h : i < l.length) (d : β) (d0 : α) : (l.map f).getD i d = f (l.getD i d0) := by
  rw [List.getD_eq_getElem _ _ (by simpa using h), List.getElem_map,
    List.getD_eq_getElem _ _ h]

theorem getLastD_eq_getD {α : Type} (l : List α) (h : l ≠ []) (a b : α) :
    l.getLastD a = l.getD (l.length - 1) b := by
  have hl : 0 < l.length := List.length_pos.mpr h
  rw [List.getLastD_eq_getLast?, List.getLast?_eq_getElem?, List.getD_eq_getElem?_getD,
    List.getElem?_eq_getElem (show l.length - 1 < l.length by omega)]
  rfl

/-! ## Claim C9: normalization left-pads with ones -/

/-- C9, counterexample. The claim asserts the padded result has rank equal to
targetRank for every shape and every targetRank; when targetRank is below the
shape's rank, prependWithOnes returns the shape unchanged, so the result
keeps rank 2 at targetRank 1. -/
theorem prependWithOnes_counterexample :
    (prependWithOnes [2, 3] 1).length = 2 ∧ ¬(prependWithOnes [2, 3] 1).length = 1 := by
  decide

/-- C9, amended: whenever targetRank is at least the shape's rank, the result
has rank targetRank, ends with the original extents in order, and every
prepended leading extent is 1. -/
theorem prependWithOnes_pads (dims : List Nat) (rank : Nat)
    (h : dims.length ≤ rank) :
    (prependWithOnes dims rank).length = rank ∧
    (prependWithOnes dims rank).drop (rank - dims.length) = dims ∧
    ∀ i < rank - dims.length, (prependWithOnes dims rank).getD i 0 = 1 := by
  unfold prependWithOnes
  by_cases hle : rank ≤ dims.length
  · have heq : rank = dims.length := Nat.le_antisymm hle h
    simp [hle, heq]
  · have hlt : dims.length < rank := Nat.lt_of_not_le hle
    simp only [if_neg hle]
    refine ⟨by simp [Nat.sub_add_cancel h], ?_, ?_⟩
    · nth_rewrite 1 [show rank - dims.length
        = (List.replicate (rank - dims.length) (1 : Nat)).length
        from (List.length_replicate _ _).symm]
      rw [List.drop_left]
    · intro i hi
      rw [List.getD_append _ _ _ _ (by simpa using hi),
        List.getD_eq_getElem _ _ (by simpa using hi), List.getElem_replicate]

/-- C9 witness: the amended statement at shape [2, 3] and target rank 6. -/
theorem prependWithOnes_pads_witness :
    (prependWithOnes [2, 3] 6).length = 6 ∧
    (prependWithOnes [2, 3] 6).drop (6 - ([2, 3] : List Nat).length) = [2, 3] ∧
    ∀ i < 6 - ([2, 3] : List Nat).length, (prependWithOnes [2, 3] 6).getD i 0 = 1 :=
  prependWithOnes_pads [2, 3] 6 (by decide)

/-! ## Claim C8: execute fails before any kernel invocation -/

/-- C8: execute raises an error when there is no compiled kernel, or, on the
dynamic path, when the tensor rank differs from the supported 6D rank; in
either case the error is raised with zero kernel calls issued, so no partial
output is produced. -/
theorem execute_error_before_dispatch (s : ExecConfig)
    (h : s.hasKernel = false ∨ (s.isDynamic = true ∧ s.tensorRank ≠ rank6D)) :
    (∃ e, (executeTrace s).2 = some e) ∧ (executeTrace s).1 = [] := by
  unfold executeTrace
  rcases h with h | ⟨hdyn, hrank⟩
  · simp [h]
  · by_cases hk : (!s.hasKernel || !s.canUseOptimizedImpl) = true
    · simp [hk]
    · simp [hk, hdyn, hrank]

/-- C8 witness: a dynamic configuration of rank 5 with a compiled kernel. -/
theorem execute_error_before_dispatch_witness :
    (∃ e, (executeTrace ⟨true, true, true, 5, [1, 1, 1, 1, 1], 1, 1⟩).2 = some e) ∧
    (executeTrace ⟨true, true, true, 5, [1, 1, 1, 1, 1], 1, 1⟩).1 = [] :=
  execute_error_before_dispatch ⟨true, true, true, 5, [1, 1, 1, 1, 1], 1, 1⟩
    (Or.inr ⟨rfl, by decide⟩)

/-! ## Claim C7: dynamic-path tile step increments -/

/-- C7: on the dynamic path every operand gets a vector step of
isa_num_lanes times the element size, and a scalar step of the element size,
both zeroed exactly when the operand is broadcasted. -/
theorem dynamic_tile_increments (master : List Nat) (ins outs : List (List Nat))
    (dataSize lanes tileRank : Nat) (i : Nat) (hi : i < ins.length + outs.length) :
    (calcJITParams master ins outs dataSize lanes true tileRank).vector_tile_increments.getD i 0
      = (if bmaskOf master ((ins ++ outs).getD i []) then 0 else lanes * sizeof_float) ∧
    (calcJITParams master ins outs dataSize lanes true tileRank).scalar_tile_increments.getD i 0
      = (if bmaskOf master ((ins ++ outs).getD i []) then 0 else sizeof_float) := by
  have hlen : i < (ins ++ outs).length := by simpa using hi
  have hmask : i < ((ins ++ outs).map (bmaskOf master)).length := by simpa using hi
  constructor
  · have e1 : (calcJITParams master ins outs dataSize lanes true tileRank).vector_tile_increments
        = ((ins ++ outs).map (bmaskOf master)).map (vector_tile_inc_of lanes) := rfl
    rw [e1, getD_map_of_lt _ _ _ hmask 0 false, getD_map_of_lt _ _ _ hlen false []]
    unfold vector_tile_inc_of
    split <;> simp
  · have e2 : (calcJITParams master ins outs dataSize lanes true tileRank).scalar_tile_increments
        = ((ins ++ outs).map (bmaskOf master)).map scalar_tile_inc_of := rfl
    rw [e2, getD_map_of_lt _ _ _ hmask 0 false, getD_map_of_lt _ _ _ hlen false []]
    unfold scalar_tile_inc_of
    split <;> simp

/-- C7 witness: master [4, 8], a broadcasted input [4, 1] and the output
[4, 8], with 8 lanes: the input gets zero steps, position 0 evaluated. -/
theorem dynamic_tile_increments_witness :
    (calcJITParams [4, 8] [[4, 1]] [[4, 8]] 4 8 true 1).vector_tile_increments.getD 0 0
      = (if bmaskOf [4, 8] (([[4, 1]] ++ [[4, 8]] : List (List Nat)).getD 0 []) then 0
         else 8 * sizeof_float) ∧
    (calcJITParams [4, 8] [[4, 1]] [[4, 8]] 4 8 true 1).scalar_tile_increments.getD 0 0
      = (if bmaskOf [4, 8] (([[4, 1]] ++ [[4, 8]] : List (List Nat)).getD 0 []) then 0
         else sizeof_float) :=
  dynamic_tile_increments [4, 8] [[4, 1]] [[4, 8]] 4 8 1 0 (by decide)

/-! ## Claim C3: collapsing preserves the total element count -/

theorem collapseLastDims_prod (dims d2 : List Nat) (c : Nat)
    (h : collapseLastDims dims c = some d2) : d2.prod = dims.prod := by
  unfold collapseLastDims at h
  split at h
  · exact absurd h (by simp)
  · have hd2 := (Option.some.injEq _ _).mp h
    subst hd2
    rw [List.prod_append, List.prod_append, List.prod_replicate, one_pow,
      List.prod_cons, List.prod_nil, mul_one, ← List.prod_eq_foldl, one_mul,
      ← List.prod_append, List.take_append_drop]

theorem optLoop_domain_prod (nthr fullWork : Nat) :
    ∀ (fuel : Nat) (s s2 : OptState), optLoop nthr fullWork fuel s = some s2 →
    s2.domain.prod = s.domain.prod := by
  intro fuel
  induction fuel with
  | zero => intro s s2 h; exact absurd h (by simp [optLoop])
  | succ n ih =>
    intro s s2 h
    unfold optLoop at h
    split at h
    · cases h; rfl
    · split at h
      · cases h; rfl
      · split at h
        · split at h
          · split at h
            · exact ih { s with
                tileRank := s.tileRank + 1
                cur := s.cur * s.domain.getD (s.domain.length - 2) 1 } s2 h
            · cases h; rfl
          · split at h
            · rename_i ins2 outs2 dom2 hins houts hdom
              rw [ih _ _ h]
              exact collapseLastDims_prod _ _ _ hdom
            · exact absurd h (by simp)
        · cases h; rfl

/-- C3: the iteration domain returned by the domain optimizer has the same
total element count as the master shape it started from; collapsing never
changes the product of the extents. -/
theorem optimize_preserves_product (ins outs : List (List Nat)) (domain : List Nat)
    (tileRank nthr fullWork : Nat) (s2 : OptState)
    (h : optimizeExecDomain ins outs domain tileRank nthr fullWork = some s2) :
    s2.domain.prod = domain.prod :=
  optLoop_domain_prod nthr fullWork _ _ s2 h

/-- C3 witness: a run that accepts one fold, turning [1,1,1,1,4,8] into
[1,1,1,1,1,32], keeps the product at 32. -/
theorem optimize_preserves_product_witness :
    ((⟨[[1, 1, 1, 1, 1, 32]], [[1, 1, 1, 1, 1, 32]], [1, 1, 1, 1, 1, 32], 1, 1, 32⟩ :
        OptState).domain.prod = ([1, 1, 1, 1, 4, 8] : List Nat).prod) :=
  optimize_preserves_product [[1, 1, 1, 1, 4, 8]] [[1, 1, 1, 1, 4, 8]]
    [1, 1, 1, 1, 4, 8] 1 1 32
    ⟨[[1, 1, 1, 1, 1, 32]], [[1, 1, 1, 1, 1, 32]], [1, 1, 1, 1, 1, 32], 1, 1, 32⟩
    (by decide)

/-! ## Claim C4: the parallelism floor -/

theorem collapseLastDims_one_getLastD (d d2 : List Nat)
    (h : collapseLastDims d 1 = some d2) :
    d2.getLastD 1 = d.getD (d.length - 2) 1 * d.getLastD 1 ∧ 3 ≤ d.length := by
  unfold collapseLastDims at h
  split at h
  · exact absurd h (by simp)
  · rename_i hguard
    have h3 : 3 ≤ d.length := by omega
    have hd2 := (Option.some.injEq _ _).mp h
    subst hd2
    refine ⟨?_, h3⟩
    rw [List.getLastD_concat, ← List.prod_eq_foldl]
    have e1 : d.drop (d.length - 1 - 1) = [d.getD (d.length - 2) 1, d.getD (d.length - 1) 1] := by
      have hn2 : d.length - 1 - 1 = d.length - 2 := by omega
      rw [hn2, List.drop_eq_getElem_cons (show d.length - 2 < d.length by omega),
        show d.length - 2 + 1 = d.length - 1 by omega,
        List.drop_eq_getElem_cons (show d.length - 1 < d.length by omega),
        show d.length - 1 + 1 = d.length by omega, List.drop_length,
        List.getD_eq_getElem _ _ (show d.length - 2 < d.length by omega),
        List.getD_eq_getElem _ _ (show d.length - 1 < d.length by omega)]
    rw [e1]
    rw [getLastD_eq_getD d (by intro hnil; rw [hnil] at h3; simp at h3) 1 1]
    simp [List.prod_cons]

theorem optLoop_parallelism (nthr fullWork : Nat) :
    ∀ (fuel : Nat) (s s2 : OptState),
    (s.cur = s.domain.getLastD 1 ∨ hasTailMismatch s.ins = true) →
    optLoop nthr fullWork fuel s = some s2 →
    s2.domain = s.domain ∨ nthr ≤ fullWork / s2.domain.getLastD 1 := by
  intro fuel
  induction fuel with
  | zero => intro s s2 _ h; exact absurd h (by simp [optLoop])
  | succ n ih =>
    intro s s2 hq h
    unfold optLoop at h
    split at h
    · cases h; exact Or.inl rfl
    · split at h
      · cases h; exact Or.inl rfl
      · split at h
        · rename_i hacc
          split at h
          · rename_i hmm
            split at h
            · have hrec := ih
                { s with
                  tileRank := s.tileRank + 1
                  cur := s.cur * s.domain.getD (s.domain.length - 2) 1 }
                s2 (Or.inr hmm) h
              rcases hrec with hd | hb
              · exact Or.inl hd
              · exact Or.inr hb
            · cases h; exact Or.inl rfl
          · rename_i hmm
            split at h
            · rename_i ins2 outs2 dom2 hins houts hdom
              rcases hq with hcur | hbad
              · obtain ⟨hlast, h3⟩ := collapseLastDims_one_getLastD _ _ hdom
                have hnext : dom2.getLastD 1
                    = s.cur * s.domain.getD (s.domain.length - 2) 1 := by
                  rw [hlast, hcur]; ring
                have hrec := ih
                  { ins := ins2
                    outs := outs2
                    domain := dom2
                    tileRank := s.tileRank
                    collapsedDims := s.collapsedDims + 1
                    cur := s.cur * s.domain.getD (s.domain.length - 2) 1 }
                  s2 (Or.inl hnext.symm) h
                rcases hrec with hd | hb
                · rw [hd, hnext]
                  exact Or.inr hacc
                · exact Or.inr hb
              · exact absurd hbad hmm
            · exact absurd h (by simp)
        · cases h; exact Or.inl rfl

/-- C4, counterexample. The claim asserts the optimizer never returns a domain
whose parallelism (total elements over the innermost extent) is below the
thread floor unless the uncollapsed domain has rank below 2. With 2 threads
and master shape [1,1,1,1,1,100] (rank 6), the loop exits at once because the
innermost extent already equals the full work amount, and the returned domain
has parallelism 100 / 100 = 1, below the floor of 2. -/
theorem optimize_parallelism_counterexample :
    optimizeExecDomain [[1, 1, 1, 1, 1, 100]] [[1, 1, 1, 1, 1, 100]]
        [1, 1, 1, 1, 1, 100] 1 2 100
      = some ⟨[[1, 1, 1, 1, 1, 100]], [[1, 1, 1, 1, 1, 100]], [1, 1, 1, 1, 1, 100], 1, 0, 100⟩ ∧
    ([1, 1, 1, 1, 1, 100] : List Nat).prod / ([1, 1, 1, 1, 1, 100] : List Nat).getLastD 1 < 2 ∧
    2 ≤ ([1, 1, 1, 1, 1, 100] : List Nat).length := by
  refine ⟨by decide, by decide, by decide⟩

/-- C4, amended: a fold is accepted only while the resulting parallelism
(full work amount divided by the new innermost extent) stays at or above the
thread floor, so the optimizer either returns the domain unchanged (no fold
accepted) or returns a domain whose parallelism meets the floor; a domain
that already violates the floor can only be returned uncollapsed. -/
theorem optimize_parallelism_floor (ins outs : List (List Nat)) (domain : List Nat)
    (tileRank nthr fullWork : Nat) (s2 : OptState) (hne : domain ≠ [])
    (hfull : fullWork = domain.prod)
    (h : optimizeExecDomain ins outs domain tileRank nthr fullWork = some s2) :
    s2.domain = domain ∨ nthr ≤ domain.prod / s2.domain.getLastD 1 := by
  have hcur : domain.getLastD 0 = domain.getLastD 1 := by
    rw [getLastD_eq_getD domain hne 0 1, getLastD_eq_getD domain hne 1 1]
  have hres := optLoop_parallelism nthr fullWork _ _ s2 (Or.inl hcur) h
  rw [← hfull]
  exact hres

/-- C4 witness: with one thread, master [1,1,1,1,4,8] is folded once to
[1,1,1,1,1,32]; the returned parallelism 32/32 = 1 meets the floor of 1. -/
theorem optimize_parallelism_floor_witness :
    (⟨[[1, 1, 1, 1, 1, 32]], [[1, 1, 1, 1, 1, 32]], [1, 1, 1, 1, 1, 32], 1, 1, 32⟩ :
        OptState).domain = [1, 1, 1, 1, 4, 8] ∨
    1 ≤ ([1, 1, 1, 1, 4, 8] : List Nat).prod /
        ((⟨[[1, 1, 1, 1, 1, 32]], [[1, 1, 1, 1, 1, 32]], [1, 1, 1, 1, 1, 32], 1, 1, 32⟩ :
          OptState) : OptState).domain.getLastD 1 :=
  optimize_parallelism_floor [[1, 1, 1, 1, 4, 8]] [[1, 1, 1, 1, 4, 8]]
    [1, 1, 1, 1, 4, 8] 1 1 32
    ⟨[[1, 1, 1, 1, 1, 32]], [[1, 1, 1, 1, 1, 32]], [1, 1, 1, 1, 1, 32], 1, 1, 32⟩
    (by decide) (by decide) (by decide)

/-! ## Claim C5: fold rejection on broadcast mismatch and the tile-rank cap -/

theorem optLoop_mismatch (nthr fullWork : Nat) :
    ∀ (fuel : Nat) (s s2 : OptState), hasTailMismatch s.ins = true →
    s.tileRank ≤ maxTileRank → optLoop nthr fullWork fuel s = some s2 →
    s2.ins = s.ins ∧ s2.domain = s.domain ∧ s2.tileRank ≤ maxTileRank := by
  intro fuel
  induction fuel with
  | zero => intro s s2 _ _ h; exact absurd h (by simp [optLoop])
  | succ n ih =>
    intro s s2 hmm htr h
    unfold optLoop at h
    split at h
    · cases h; exact ⟨rfl, rfl, htr⟩
    · split at h
      · cases h; exact ⟨rfl, rfl, htr⟩
      · split at h
        · split at h
          · rename_i hlt
            exact ih
              { s with
                tileRank := s.tileRank + 1
                cur := s.cur * s.domain.getD (s.domain.length - 2) 1 }
              s2 hmm hlt h
          · cases h; exact ⟨rfl, rfl, htr⟩
        · cases h; exact ⟨rfl, rfl, htr⟩

/-- C5, counterexample. The claim rejects a fold whenever ANY operand
broadcasts on exactly one of the two folded dimensions, but findDimsToCollapse
checks only the inputs. With master [1,1,1,1,4,8], input [1,1,1,1,4,8] and an
output [1,1,1,1,1,8] that has extent 1 on the outer folded dimension and 8 on
the inner, the fold is accepted anyway and the domain changes. -/
theorem optimize_mismatch_counterexample :
    optimizeExecDomain [[1, 1, 1, 1, 4, 8]] [[1, 1, 1, 1, 1, 8]]
        [1, 1, 1, 1, 4, 8] 1 1 32
      = some ⟨[[1, 1, 1, 1, 1, 32]], [[1, 1, 1, 1, 1, 8]], [1, 1, 1, 1, 1, 32], 1, 1, 32⟩ ∧
    ¬(⟨[[1, 1, 1, 1, 1, 32]], [[1, 1, 1, 1, 1, 8]], [1, 1, 1, 1, 1, 32], 1, 1, 32⟩ :
        OptState).domain = [1, 1, 1, 1, 4, 8] ∧
    ([1, 1, 1, 1, 1, 8] : List Nat).getD 4 0 = 1 ∧
    ¬([1, 1, 1, 1, 1, 8] : List Nat).getD 5 0 = 1 := by
  refine ⟨by decide, by decide, by decide, by decide⟩

/-- C5, amended: a fold is rejected whenever some INPUT operand has extent 1 on
exactly one of the two innermost dimensions; in that case the optimizer leaves
the domain and the input shapes untouched and only raises the tile rank, which
never exceeds the hard cap maxTileRank = 2 when it starts at or below it. -/
theorem optimize_input_mismatch_rejects (ins outs : List (List Nat))
    (domain : List Nat) (tileRank nthr fullWork : Nat) (s2 : OptState)
    (hmm : hasTailMismatch ins = true) (htr : tileRank ≤ maxTileRank)
    (h : optimizeExecDomain ins outs domain tileRank nthr fullWork = some s2) :
    s2.domain = domain ∧ s2.ins = ins ∧ s2.tileRank ≤ maxTileRank := by
  have hres := optLoop_mismatch nthr fullWork _ _ s2 hmm htr h
  exact ⟨hres.2.1, hres.1, hres.2.2⟩

/-- C5 witness: input [1,1,1,1,4,1] broadcasts on the inner folded dimension
only, so with master [1,1,1,1,4,100] the fold is rejected, the domain stays
put and the tile rank rises to 2, the cap. -/
theorem optimize_input_mismatch_rejects_witness :
    (⟨[[1, 1, 1, 1, 4, 1], [1, 1, 1, 1, 1, 100]], [[1, 1, 1, 1, 4, 100]],
        [1, 1, 1, 1, 4, 100], 2, 0, 400⟩ : OptState).domain = [1, 1, 1, 1, 4, 100] ∧
    (⟨[[1, 1, 1, 1, 4, 1], [1, 1, 1, 1, 1, 100]], [[1, 1, 1, 1, 4, 100]],
        [1, 1, 1, 1, 4, 100], 2, 0, 400⟩ : OptState).ins
      = [[1, 1, 1, 1, 4, 1], [1, 1, 1, 1, 1, 100]] ∧
    (⟨[[1, 1, 1, 1, 4, 1], [1, 1, 1, 1, 1, 100]], [[1, 1, 1, 1, 4, 100]],
        [1, 1, 1, 1, 4, 100], 2, 0, 400⟩ : OptState).tileRank ≤ maxTileRank :=
  optimize_input_mismatch_rejects [[1, 1, 1, 1, 4, 1], [1, 1, 1, 1, 1, 100]]
    [[1, 1, 1, 1, 4, 100]] [1, 1, 1, 1, 4, 100] 1 1 400
    ⟨[[1, 1, 1, 1, 4, 1], [1, 1, 1, 1, 1, 100]], [[1, 1, 1, 1, 4, 100]],
      [1, 1, 1, 1, 4, 100], 2, 0, 400⟩
    (by decide) (by decide) (by decide)

/-! ## Claim C1: planned data offsets -/

theorem offset_calculation_length :
    ∀ (master dims : List Nat), dims.length = master.length →
    (offset_calculation master dims).length = master.length - 1 := by
  intro master
  induction master with
  | nil => intro dims h; rfl
  | cons m ms ih =>
    intro dims h
    cases dims with
    | nil => simp at h
    | cons d ds =>
      cases ms with
      | nil => simp [offset_calculation]
      | cons m2 ms2 =>
        have h2 : ds.length = (m2 :: ms2).length := by simpa using h
        have := ih ds h2
        simp only [offset_calculation, List.length_cons] at this ⊢
        omega

theorem offset_calculation_getD :
    ∀ (master dims : List Nat), dims.length = master.length →
    ∀ i, i + 1 < master.length →
    (offset_calculation master dims).getD i 0 =
      if dims.getD i 0 = master.getD i 0 then (dims.drop (i + 1)).prod else 0 := by
  intro master
  induction master with
  | nil => intro dims h i hi; simp at hi
  | cons m ms ih =>
    intro dims h i hi
    cases dims with
    | nil => simp at h
    | cons d ds =>
      cases ms with
      | nil => simp at hi
      | cons m2 ms2 =>
        have h2 : ds.length = (m2 :: ms2).length := by simpa using h
        cases i with
        | zero => simp [offset_calculation]
        | succ j =>
          have hj : j + 1 < (m2 :: ms2).length := by
            simpa using Nat.lt_of_succ_lt_succ hi
          simp only [offset_calculation, List.getD_cons_succ, List.drop_succ_cons]
          exact ih ds h2 j hj

theorem data_offsets_row_length (master dims : List Nat)
    (hl : dims.length = master.length) :
    (data_offsets_row master dims dataSize).length = master.length - 1 := by
  unfold data_offsets_row
  rw [List.length_zipWith, offset_calculation_length master dims hl,
    List.length_take]
  omega

theorem data_offsets_row_getD (master dims : List Nat) (dataSize : Nat)
    (hl : dims.length = master.length)
    (hcompat : ∀ i, i < master.length → dims.getD i 0 = 1 ∨ dims.getD i 0 = master.getD i 0)
    (hpos : ∀ i, i < master.length → 0 < master.getD i 0) :
    ∀ i, i + 1 < master.length →
    (data_offsets_row master dims dataSize).getD i 0 =
      if (dims.getD i 0 = 1 ∧ 1 < master.getD i 0) ∨ master.getD i 0 = 1 then 0
      else (dims.drop (i + 1)).prod * dataSize := by
  intro i hi
  have hoc : (offset_calculation master dims).length = master.length - 1 :=
    offset_calculation_length master dims hl
  have hrow : (data_offsets_row master dims dataSize).length = master.length - 1 :=
    data_offsets_row_length master dims hl
  have hib : i < (data_offsets_row master dims dataSize).length := by omega
  rw [List.getD_eq_getElem _ _ hib]
  unfold data_offsets_row
  rw [List.getElem_zipWith, List.getElem_take]
  rw [← List.getD_eq_getElem (offset_calculation master dims) 0
      (show i < (offset_calculation master dims).length by omega),
    ← List.getD_eq_getElem master 0 (show i < master.length by omega),
    offset_calculation_getD master dims hl i hi]
  have hm0 : 0 < master.getD i 0 := hpos i (by omega)
  rcases hcompat i (by omega) with hc | hc
  · by_cases hm1 : master.getD i 0 = 1
    · rw [if_pos hm1, if_pos (Or.inr hm1), Nat.zero_mul]
    · have hm2 : 1 < master.getD i 0 := by omega
      rw [if_neg hm1, if_neg (show ¬dims.getD i 0 = master.getD i 0 by omega),
        if_pos (Or.inl ⟨hc, hm2⟩), Nat.zero_mul]
  · by_cases hm1 : master.getD i 0 = 1
    · rw [if_pos hm1, if_pos (Or.inr hm1), Nat.zero_mul]
    · rw [if_neg hm1, if_pos hc, if_neg (by
        rintro (⟨hd1, hmgt⟩ | hme)
        · omega
        · exact hm1 hme)]

/-- C1, counterexample. The claim says the offset at a non-broadcast dimension
d equals the product of the operand's own inner extents times the element
size. At d = 4 with master [1,1,1,1,1,4] and operand [1,1,1,1,1,4] the
dimension is not broadcast (operand extent equals the master extent), so the
claim requires 4 * 4 = 16; the code zeroes every offset whose master extent
is 1 and plans 0. -/
theorem data_offsets_counterexample :
    (data_offsets_row [1, 1, 1, 1, 1, 4] [1, 1, 1, 1, 1, 4] 4).getD 4 0 = 0 ∧
    ¬(([1, 1, 1, 1, 1, 4] : List Nat).getD 4 0 = 1 ∧
        1 < ([1, 1, 1, 1, 1, 4] : List Nat).getD 4 0) ∧
    (([1, 1, 1, 1, 1, 4] : List Nat).drop 5).prod * 4 = 16 ∧
    ¬(0 : Nat) = 16 := by
  refine ⟨by decide, by decide, by decide, by decide⟩

/-- C1, amended: for every operand and harness dimension d, the planned data
offset is 0 when the operand broadcasts at d (extent 1 against a master
extent above 1) AND ALSO when the master extent at d is 1; otherwise it is
the product of the operand's extents inner to d times the element size. -/
theorem data_offsets_plan (master dims : List Nat) (dataSize : Nat)
    (hl : dims.length = master.length)
    (hcompat : ∀ i, i < master.length → dims.getD i 0 = 1 ∨ dims.getD i 0 = master.getD i 0)
    (hpos : ∀ i, i < master.length → 0 < master.getD i 0) :
    ∀ i, i + 1 < master.length →
    (data_offsets_row master dims dataSize).getD i 0 =
      if (dims.getD i 0 = 1 ∧ 1 < master.getD i 0) ∨ master.getD i 0 = 1 then 0
      else (dims.drop (i + 1)).prod * dataSize :=
  data_offsets_row_getD master dims dataSize hl hcompat hpos

/-- C1 witness: master [1,1,2,4,5,6] with operand [1,1,2,1,5,6] (broadcast at
dimension 3), at dimensions 3 and 2. -/
theorem data_offsets_plan_witness :
    ((data_offsets_row [1, 1, 2, 4, 5, 6] [1, 1, 2, 1, 5, 6] 4).getD 3 0 =
      if (([1, 1, 2, 1, 5, 6] : List Nat).getD 3 0 = 1 ∧
            1 < ([1, 1, 2, 4, 5, 6] : List Nat).getD 3 0) ∨
          ([1, 1, 2, 4, 5, 6] : List Nat).getD 3 0 = 1 then 0
      else (([1, 1, 2, 1, 5, 6] : List Nat).drop 4).prod * 4) ∧
    ((data_offsets_row [1, 1, 2, 4, 5, 6] [1, 1, 2, 1, 5, 6] 4).getD 2 0 =
      if (([1, 1, 2, 1, 5, 6] : List Nat).getD 2 0 = 1 ∧
            1 < ([1, 1, 2, 4, 5, 6] : List Nat).getD 2 0) ∨
          ([1, 1, 2, 4, 5, 6] : List Nat).getD 2 0 = 1 then 0
      else (([1, 1, 2, 1, 5, 6] : List Nat).drop 3).prod * 4) :=
  ⟨data_offsets_plan [1, 1, 2, 4, 5, 6] [1, 1, 2, 1, 5, 6] 4 (by decide)
      (by decide) (by decide) 3 (by decide),
    data_offsets_plan [1, 1, 2, 4, 5, 6] [1, 1, 2, 1, 5, 6] 4 (by decide)
      (by decide) (by decide) 2 (by decide)⟩

/-! ## Claim C6: tile-boundary correction offsets -/

/-- C6, counterexample. With tileRank = 2, master [1,1,1,1,4,8] and input
[1,1,1,1,4,1], the INNER dimension is broadcast on the operand (extent 1
against master extent 8). The claim demands a negative rewind of one full
row, -(8 * 4) = -32; the code instead plans a POSITIVE correction of one
element, +4 (the outer tile must advance the pointer the broadcast loads did
not move). The negative rewind is applied when the OUTER tile dimension is
broadcast, not the inner one. -/
theorem sch_offsets_counterexample :
    (calcJITParams [1, 1, 1, 1, 4, 8] [[1, 1, 1, 1, 4, 1]] [[1, 1, 1, 1, 4, 8]]
        4 8 false 2).scheduler_offsets = [4, 0] ∧
    ¬((calcJITParams [1, 1, 1, 1, 4, 8] [[1, 1, 1, 1, 4, 1]] [[1, 1, 1, 1, 4, 8]]
        4 8 false 2).scheduler_offsets.getD 0 0
      = -((([1, 1, 1, 1, 4, 8] : List Nat).getD 5 0 : Int) * 4)) := by
  refine ⟨by decide, by decide⟩

/-- C6, amended: for an input operand under tileRank = 2, the tile-boundary
correction is a negative rewind of one full master row exactly when the
operand broadcasts on the OUTER tile dimension (second-innermost) while its
inner extent is not 1 (forcing a reread of the same row); it is +elementSize
when the operand's outer tile dimension advances normally (extent above 1,
equal to the master) while the INNER dimension is broadcast; and it is zero
otherwise, in particular when the operand's row stride already advances
correctly. -/
theorem sch_offset_in_spec (master dims : List Nat) (dataSize : Nat)
    (hl : dims.length = master.length) (hn : 2 ≤ master.length)
    (hcompat : ∀ i, i < master.length → dims.getD i 0 = 1 ∨ dims.getD i 0 = master.getD i 0)
    (hmpos : ∀ i, i < master.length → 0 < master.getD i 0)
    (hdpos : ∀ i, i < master.length → 0 < dims.getD i 0)
    (hds : 0 < dataSize) :
    sch_offset_in master dims dataSize =
      if dims.getD (master.length - 2) 0 = 1 ∧
          1 < master.getD (master.length - 2) 0 ∧
          ¬dims.getD (master.length - 1) 0 = 1 then
        -((master.getD (master.length - 1) 0 : Int) * dataSize)
      else if dims.getD (master.length - 2) 0 = master.getD (master.length - 2) 0 ∧
          1 < master.getD (master.length - 2) 0 ∧
          dims.getD (master.length - 1) 0 = 1 ∧
          1 < master.getD (master.length - 1) 0 then (dataSize : Int)
      else 0 := by
  have hoffrow := data_offsets_row_getD master dims dataSize hl hcompat hmpos
    (master.length - 2) (by omega)
  rw [show master.length - 2 + 1 = master.length - 1 by omega] at hoffrow
  have hdropb : dims.drop (master.length - 1) = [dims.getD (master.length - 1) 0] := by
    have hlt : master.length - 1 < dims.length := by omega
    rw [List.drop_eq_getElem_cons hlt, show master.length - 1 + 1 = dims.length by omega,
      List.drop_length, List.getD_eq_getElem _ _ hlt]
  have hprodb : (dims.drop (master.length - 1)).prod = dims.getD (master.length - 1) 0 := by
    rw [hdropb]; simp
  rw [hprodb] at hoffrow
  have hrowlen : (data_offsets_row master dims dataSize).length = master.length - 1 :=
    data_offsets_row_length master dims hl
  have hrowne : data_offsets_row master dims dataSize ≠ [] := by
    intro h0
    rw [h0] at hrowlen
    simp at hrowlen
    omega
  have hlastrow : (data_offsets_row master dims dataSize).getLastD 0
      = (data_offsets_row master dims dataSize).getD (master.length - 2) 0 := by
    rw [getLastD_eq_getD _ hrowne 0 0, hrowlen,
      show master.length - 1 - 1 = master.length - 2 by omega]
  have hmne : master ≠ [] := by
    intro h0; rw [h0] at hn; simp at hn
  have hdne : dims ≠ [] := by
    intro h0; rw [h0] at hl; simp at hl; omega
  have hmlast : master.getLastD 0 = master.getD (master.length - 1) 0 :=
    getLastD_eq_getD master hmne 0 0
  have hdlast : dims.getLastD 0 = dims.getD (master.length - 1) 0 := by
    rw [getLastD_eq_getD dims hdne 0 0, hl]
  have hoff : (data_offsets_row master dims dataSize).getLastD 0
      = if (dims.getD (master.length - 2) 0 = 1 ∧
              1 < master.getD (master.length - 2) 0) ∨
            master.getD (master.length - 2) 0 = 1 then 0
        else dims.getD (master.length - 1) 0 * dataSize := by
    rw [hlastrow, hoffrow]
  unfold sch_offset_in bmaskOf
  rw [hoff, hmlast, hdlast, hl]
  set a := dims.getD (master.length - 2) 0 with ha_def
  set b := dims.getD (master.length - 1) 0 with hb_def
  set A := master.getD (master.length - 2) 0 with hA_def
  set B := master.getD (master.length - 1) 0 with hB_def
  have hApos : 0 < A := hmpos (master.length - 2) (by omega)
  have hBpos : 0 < B := hmpos (master.length - 1) (by omega)
  have hapos : 0 < a := hdpos (master.length - 2) (by omega)
  have hbpos : 0 < b := hdpos (master.length - 1) (by omega)
  have hc2 := hcompat (master.length - 2) (by omega)
  have hc1 := hcompat (master.length - 1) (by omega)
  rw [← ha_def, ← hA_def] at hc2
  rw [← hb_def, ← hB_def] at hc1
  by_cases hC0 : (a = 1 ∧ 1 < A) ∨ A = 1
  · rw [if_pos hC0, if_neg (show ¬(0 : Nat) > dataSize by omega),
      if_neg (show ¬(0 : Nat) = dataSize by omega)]
    rcases hC0 with ⟨ha1, hAgt⟩ | hA1
    · by_cases hb1 : b = 1
      · rw [if_neg (show ¬(¬a = A ∧ ¬b = 1) by
            rintro ⟨_, hbn⟩; exact hbn hb1),
          if_neg (show ¬(a = 1 ∧ 1 < A ∧ ¬b = 1) by
            rintro ⟨_, _, hbn⟩; exact hbn hb1),
          if_neg (show ¬(a = A ∧ 1 < A ∧ b = 1 ∧ 1 < B) by
            rintro ⟨haA, _, _, _⟩; omega)]
      · rw [if_pos (show ¬a = A ∧ ¬b = 1 by exact ⟨by omega, hb1⟩),
          if_pos (show a = 1 ∧ 1 < A ∧ ¬b = 1 by exact ⟨ha1, hAgt, hb1⟩)]
    · have ha1 : a = 1 := by omega
      rw [if_neg (show ¬(¬a = A ∧ ¬b = 1) by
          rintro ⟨haA, _⟩; exact haA (by omega)),
        if_neg (show ¬(a = 1 ∧ 1 < A ∧ ¬b = 1) by
          rintro ⟨_, hAgt, _⟩; omega),
        if_neg (show ¬(a = A ∧ 1 < A ∧ b = 1 ∧ 1 < B) by
          rintro ⟨_, hAgt, _, _⟩; omega)]
  · rw [if_neg hC0]
    have hAgt : 1 < A := by
      rcases hc2 with h1 | h1 <;> omega
    have haA : a = A := by
      rcases hc2 with h1 | h1
      · exact absurd (Or.inl ⟨h1, hAgt⟩) hC0
      · exact h1
    by_cases hb1 : b = 1
    · rw [hb1, Nat.one_mul, if_neg (show ¬dataSize > dataSize by omega),
        if_pos rfl]
      by_cases hB1 : B = 1
      · rw [if_neg (show ¬((B != 1) && ((1 : Nat) == 1)) = true by
            simp [hB1]),
          if_neg (show ¬(a = 1 ∧ 1 < A ∧ ¬(1 : Nat) = 1) by
            rintro ⟨_, _, hbn⟩; exact hbn rfl),
          if_neg (show ¬(a = A ∧ 1 < A ∧ (1 : Nat) = 1 ∧ 1 < B) by
            rintro ⟨_, _, _, hBgt⟩; omega)]
      · rw [if_pos (show ((B != 1) && ((1 : Nat) == 1)) = true by
            simp [hB1]),
          if_neg (show ¬(a = 1 ∧ 1 < A ∧ ¬(1 : Nat) = 1) by
            rintro ⟨_, _, hbn⟩; exact hbn rfl),
          if_pos (show a = A ∧ 1 < A ∧ (1 : Nat) = 1 ∧ 1 < B from
            ⟨haA, hAgt, rfl, by omega⟩)]
    · have hgt : dataSize < b * dataSize := by
        have h2 : 1 < b := by omega
        calc dataSize = 1 * dataSize := (Nat.one_mul _).symm
        _ < b * dataSize := Nat.mul_lt_mul_of_pos_right h2 hds
      rw [if_pos hgt,
        if_neg (show ¬(a = 1 ∧ 1 < A ∧ ¬b = 1) by
          rintro ⟨ha1, _, _⟩; omega),
        if_neg (show ¬(a = A ∧ 1 < A ∧ b = 1 ∧ 1 < B) by
          rintro ⟨_, _, hbe, _⟩; exact hb1 hbe)]

/-- C6 witness: the amended statement at master [1,1,1,1,4,8] and input
[1,1,1,1,1,8] (outer tile dimension broadcast, inner not 1): the correction
is the negative rewind -(8 * 4). -/
theorem sch_offset_in_spec_witness :
    sch_offset_in [1, 1, 1, 1, 4, 8] [1, 1, 1, 1, 1, 8] 4 =
      if ([1, 1, 1, 1, 1, 8] : List Nat).getD (([1, 1, 1, 1, 4, 8] : List Nat).length - 2) 0 = 1 ∧
          1 < ([1, 1, 1, 1, 4, 8] : List Nat).getD (([1, 1, 1, 1, 4, 8] : List Nat).length - 2) 0 ∧
          ¬([1, 1, 1, 1, 1, 8] : List Nat).getD (([1, 1, 1, 1, 4, 8] : List Nat).length - 1) 0 = 1 then
        -((([1, 1, 1, 1, 4, 8] : List Nat).getD (([1, 1, 1, 1, 4, 8] : List Nat).length - 1) 0 : Int) * 4)
      else if ([1, 1, 1, 1, 1, 8] : List Nat).getD (([1, 1, 1, 1, 4, 8] : List Nat).length - 2) 0
            = ([1, 1, 1, 1, 4, 8] : List Nat).getD (([1, 1, 1, 1, 4, 8] : List Nat).length - 2) 0 ∧
          1 < ([1, 1, 1, 1, 4, 8] : List Nat).getD (([1, 1, 1, 1, 4, 8] : List Nat).length - 2) 0 ∧
          ([1, 1, 1, 1, 1, 8] : List Nat).getD (([1, 1, 1, 1, 4, 8] : List Nat).length - 1) 0 = 1 ∧
          1 < ([1, 1, 1, 1, 4, 8] : List Nat).getD (([1, 1, 1, 1, 4, 8] : List Nat).length - 1) 0 then (4 : Int)
      else 0 :=
  sch_offset_in_spec [1, 1, 1, 1, 4, 8] [1, 1, 1, 1, 1, 8] 4 (by decide) (by decide)
    (by decide) (by decide) (by decide) (by decide)

/-! ## Claim C2: dispatch coverage of schedule_nt -/

theorem flatMap_congr {α β : Type} {l : List α} {f g : α → List β}
    (h : ∀ a ∈ l, f a = g a) : l.flatMap f = l.flatMap g := by
  induction l with
  | nil => rfl
  | cons x xs ih =>
    simp only [List.flatMap_cons]
    rw [h x (by simp), ih (fun a ha => h a (by simp [ha]))]

theorem mixedRadix_append (rs : List Nat) (r t : Nat) :
    mixedRadix (rs ++ [r]) t = mixedRadix rs (t / r) ++ [t % r] := by
  induction rs generalizing t with
  | nil => simp [mixedRadix]
  | cons x rs ih =>
    rw [List.cons_append]
    show (t / (rs ++ [r]).prod) % x :: mixedRadix (rs ++ [r]) t
        = ((t / r) / rs.prod) % x :: mixedRadix rs (t / r) ++ [t % r]
    rw [ih, Nat.div_div_eq_div_mul, Nat.mul_comm r rs.prod, List.prod_append,
      List.prod_cons, List.prod_nil, Nat.mul_one, List.cons_append]

theorem decodeRev_reverse (l : List Nat) (t : Nat) :
    (decodeRev l t).reverse = mixedRadix l.reverse t := by
  induction l generalizing t with
  | nil => rfl
  | cons r l ih =>
    simp only [decodeRev, List.reverse_cons]
    rw [ih, ← mixedRadix_append]

theorem ntIndexes_eq (ws : List Nat) (t : Nat) :
    ntIndexes ws t = mixedRadix ws.dropLast t := by
  unfold ntIndexes
  rw [decodeRev_reverse, List.reverse_reverse]

theorem mixedRadix_mul_add (rs : List Nat) (d u : Nat) :
    mixedRadix rs (d * rs.prod + u) = mixedRadix rs u := by
  induction rs generalizing d u with
  | nil => rfl
  | cons r rs ih =>
    by_cases hP : rs.prod = 0
    · have e0 : (r :: rs).prod = 0 := by rw [List.prod_cons, hP, Nat.mul_zero]
      rw [e0, Nat.mul_zero, Nat.zero_add]
    · have hPpos : 0 < rs.prod := Nat.pos_of_ne_zero hP
      show ((d * (r :: rs).prod + u) / rs.prod) % r
            :: mixedRadix rs (d * (r :: rs).prod + u)
          = (u / rs.prod) % r :: mixedRadix rs u
      congr 1
      · have e : d * (r :: rs).prod + u = rs.prod * (d * r) + u := by
          rw [List.prod_cons]; ring
        rw [e, Nat.mul_add_div hPpos, Nat.add_comm, Nat.add_mul_mod_self_right]
      · have e2 : d * (r :: rs).prod + u = (d * r) * rs.prod + u := by
          rw [List.prod_cons]; ring
        rw [e2, ih]

theorem range_mul_flatMap (a b : Nat) :
    List.range (a * b)
      = (List.range a).flatMap (fun d => (List.range b).map (fun u => d * b + u)) := by
  induction a with
  | zero => simp
  | succ a ih =>
    rw [Nat.succ_mul, List.range_add, ih, List.range_succ, List.flatMap_append]
    simp

theorem range_prod_map_mixedRadix : ∀ (rs : List Nat),
    (List.range rs.prod).map (mixedRadix rs) = allCoords rs := by
  intro rs
  induction rs with
  | nil => rfl
  | cons r rs ih =>
    by_cases hP : rs.prod = 0
    · have hnil : allCoords rs = [] := by rw [← ih, hP]; rfl
      have e0 : (r :: rs).prod = 0 := by rw [List.prod_cons, hP, Nat.mul_zero]
      rw [e0]
      show ([] : List (List Nat))
          = (List.range r).flatMap (fun d => (allCoords rs).map (fun c => d :: c))
      rw [hnil]
      simp
    · have hPpos : 0 < rs.prod := Nat.pos_of_ne_zero hP
      rw [List.prod_cons, range_mul_flatMap, List.map_flatMap]
      show _ = (List.range r).flatMap (fun d => (allCoords rs).map (fun c => d :: c))
      refine flatMap_congr ?_
      intro d hd
      have hdlt : d < r := List.mem_range.mp hd
      rw [List.map_map, ← ih, List.map_map]
      refine List.map_congr_left ?_
      intro u hu
      have hult : u < rs.prod := List.mem_range.mp hu
      show mixedRadix (r :: rs) (d * rs.prod + u) = d :: mixedRadix rs u
      show ((d * rs.prod + u) / rs.prod) % r :: mixedRadix rs (d * rs.prod + u)
          = d :: mixedRadix rs u
      congr 1
      · have e : d * rs.prod + u = rs.prod * d + u := by ring
        rw [e, Nat.mul_add_div hPpos, Nat.div_eq_of_lt hult, Nat.add_zero,
          Nat.mod_eq_of_lt hdlt]
      · have e2 : d * rs.prod + u = d * (rs.prod * 1) + u := by ring
        calc mixedRadix rs (d * rs.prod + u) = mixedRadix rs u :=
          mixedRadix_mul_add rs d u

theorem allCoords_nodup : ∀ (rs : List Nat), (allCoords rs).Nodup := by
  intro rs
  induction rs with
  | nil => simp [allCoords]
  | cons r rs ih =>
    show ((List.range r).flatMap (fun d => (allCoords rs).map (fun c => d :: c))).Nodup
    refine List.nodup_flatMap.mpr ⟨?_, ?_⟩
    · intro d _
      refine List.Nodup.map ?_ ih
      intro c1 c2 hc
      injection hc
    · refine List.Pairwise.imp ?_ (List.pairwise_lt_range r)
      intro d1 d2 hlt
      simp only [Function.onFun]
      intro x hx1 hx2
      simp only [List.mem_map] at hx1 hx2
      obtain ⟨c1, _, he1⟩ := hx1
      obtain ⟨c2, _, he2⟩ := hx2
      rw [← he1] at he2
      injection he2 with hh _
      omega

theorem splitter_le (n k t : Nat) : (splitter n k t).1 ≤ (splitter n k t).2 := by
  show t * (n / k) + min t (n % k) ≤ t * (n / k) + min t (n % k) + n / k
      + (if t < n % k then 1 else 0)
  exact (Nat.le_add_right _ _).trans (Nat.le_add_right _ _)

theorem splitter_succ_fst (n k t : Nat) :
    (splitter n k (t + 1)).1 = (splitter n k t).2 := by
  show (t + 1) * (n / k) + min (t + 1) (n % k)
      = t * (n / k) + min t (n % k) + n / k + (if t < n % k then 1 else 0)
  rcases Nat.lt_or_ge t (n % k) with hc | hc
  · rw [Nat.min_eq_left hc, Nat.min_eq_left (Nat.le_of_lt hc), if_pos hc,
      Nat.succ_mul, Nat.succ_eq_add_one]
    ring
  · rw [Nat.min_eq_right (hc.trans (Nat.le_succ t)), Nat.min_eq_right hc,
      if_neg (Nat.not_lt.mpr hc), Nat.succ_mul]
    ring

theorem splitter_k_fst (n k : Nat) (hk : 0 < k) : (splitter n k k).1 = n := by
  have hr : n % k < k := Nat.mod_lt _ hk
  have e : (splitter n k k).1 = k * (n / k) + min k (n % k) := rfl
  rw [e, Nat.min_eq_right (Nat.le_of_lt hr)]
  exact Nat.div_add_mod n k

theorem flatMap_splitter_ranges (n k : Nat) (hk : 0 < k) :
    (List.range k).flatMap (fun t =>
      List.range' (splitter n k t).1 ((splitter n k t).2 - (splitter n k t).1))
    = List.range n := by
  have key : ∀ m, (List.range m).flatMap (fun t =>
      List.range' (splitter n k t).1 ((splitter n k t).2 - (splitter n k t).1))
      = List.range' 0 ((splitter n k m).1) := by
    intro m
    induction m with
    | zero =>
      have h0 : (splitter n k 0).1 = 0 := by
        have e : (splitter n k 0).1 = 0 * (n / k) + min 0 (n % k) := rfl
        rw [e, Nat.zero_mul, Nat.zero_min]
      rw [h0]
      rfl
    | succ m ih =>
      rw [List.range_succ, List.flatMap_append, ih]
      simp only [List.flatMap_cons, List.flatMap_nil, List.append_nil]
      have hle := splitter_le n k m
      have hsucc := splitter_succ_fst n k m
      have happ := List.range'_append 0 ((splitter n k m).1)
        ((splitter n k (m + 1)).1 - (splitter n k m).1) 1
      simp only [Nat.zero_add, Nat.one_mul] at happ
      rw [hsucc] at happ
      rw [hsucc, happ]
      congr 1
      omega
  rw [key k, splitter_k_fst n k hk, ← List.range_eq_range']

/-- C2: under the flat strategy, Snippet::schedule_nt splits the harness work
amount into contiguous per-thread ranges (even split, remainder to low-index
threads, modelled from the spec for the external splitter) and converts each
linear index to a coordinate by mixed-radix decomposition; across all threads
the kernel is invoked exactly once per harness coordinate of the iteration
domain, with no duplicates or omissions; the parallel_for5d strategy of
schedule_6d covers its five harness coordinates once each by the modelled
contract of the parallel primitive. -/
theorem schedule_nt_coverage (ws : List Nat) (n k : Nat) (hk : 0 < k)
    (hn : n = ws.dropLast.prod) :
    schedule_nt_visited ws n k = allCoords ws.dropLast ∧
    (allCoords ws.dropLast).Nodup ∧
    ∀ dom : List Nat, schedule_6d_visited dom = allCoords (dom.take 5) ∧
      (allCoords (dom.take 5)).Nodup := by
  refine ⟨?_, allCoords_nodup _, fun dom => ⟨rfl, allCoords_nodup _⟩⟩
  unfold schedule_nt_visited
  rw [← List.map_flatMap, flatMap_splitter_ranges n k hk, hn,
    show ntIndexes ws = mixedRadix ws.dropLast from funext (ntIndexes_eq ws)]
  exact range_prod_map_mixedRadix _

/-- C2 witness: work_size [1,2,3,1] (tile dimension already 1), harness work
amount 6 over 2 threads. -/
theorem schedule_nt_coverage_witness :
    schedule_nt_visited [1, 2, 3, 1] 6 2 = allCoords ([1, 2, 3, 1] : List Nat).dropLast ∧
    (allCoords ([1, 2, 3, 1] : List Nat).dropLast).Nodup ∧
    ∀ dom : List Nat, schedule_6d_visited dom = allCoords (dom.take 5) ∧
      (allCoords (dom.take 5)).Nodup :=
  schedule_nt_coverage [1, 2, 3, 1] 6 2 (by decide) (by decide)

/-! ## Claim C10: the prepareParams tail -/

theorem prepTailLoopRev_spec : ∀ (k : Nat) (er sr : List Nat) (h : Nat),
    k ≤ er.length → k ≤ sr.length →
    prepTailLoopRev k er sr h
      = (List.replicate k 1 ++ er.drop k, er.take k ++ sr.drop k,
         (er.take k).foldl (fun a b => a / b) h) := by
  intro k
  induction k with
  | zero => intro er sr h _ _; simp [prepTailLoopRev]
  | succ i ih =>
    intro er sr h hke hks
    cases er with
    | nil => simp at hke
    | cons e er2 =>
      cases sr with
      | nil => simp at hks
      | cons s sr2 =>
        show (1 :: (prepTailLoopRev i er2 sr2 (h / e)).1,
              e :: (prepTailLoopRev i er2 sr2 (h / e)).2.1,
              (prepTailLoopRev i er2 sr2 (h / e)).2.2) = _
        rw [ih er2 sr2 (h / e) (by simpa using hke) (by simpa using hks)]
        simp [List.replicate_succ, List.drop_succ_cons, List.take_succ_cons,
          List.foldl_cons]

theorem foldl_div_prod (xs : List Nat) : ∀ (h : Nat), xs.prod ∣ h →
    (xs.foldl (fun a b => a / b) h) * xs.prod = h := by
  induction xs with
  | nil => intro h _; simp
  | cons x xs ih =>
    intro h hdvd
    rw [List.prod_cons] at hdvd
    have hx : x ∣ h := dvd_trans (dvd_mul_right x xs.prod) hdvd
    have hxs : xs.prod ∣ h / x := (Nat.dvd_div_iff_mul_dvd hx).mpr hdvd
    rw [List.foldl_cons, List.prod_cons]
    calc (xs.foldl (fun a b => a / b) (h / x)) * (x * xs.prod)
        = ((xs.foldl (fun a b => a / b) (h / x)) * xs.prod) * x := by ring
    _ = (h / x) * x := by rw [ih (h / x) hxs]
    _ = h := Nat.div_mul_cancel hx

theorem resizeWorkAmounts_ones (prev : List Nat) (hp : ∀ x ∈ prev, x = 1) :
    resizeWorkAmounts prev = List.replicate maxTileRank 1 := by
  have hlen : (resizeWorkAmounts prev).length = maxTileRank := by
    unfold resizeWorkAmounts
    split
    · rename_i hge
      rw [List.length_take]
      exact Nat.min_eq_left hge
    · rename_i hlt
      rw [List.length_append, List.length_replicate]
      omega
  have hmem : ∀ x ∈ resizeWorkAmounts prev, x = 1 := by
    intro x hx
    unfold resizeWorkAmounts at hx
    split at hx
    · exact hp x (List.mem_of_mem_take hx)
    · rcases List.mem_append.mp hx with h1 | h1
      · exact hp x h1
      · exact List.eq_of_mem_replicate h1
  rw [← hlen]
  exact List.eq_replicate_of_mem hmem

/-- C10, counterexample. scheduler_work_amounts is a persistent member only
resized, never cleared: a dynamic invocation that lowers tileRank to 1 after
an earlier invocation ran with tileRank 2 keeps the stale outer entry. Here
the earlier invocation left [4, 100] (master was [1,1,1,1,4,100] with
tileRank 2); the new invocation has master [1,1,1,1,1,300] and tileRank 1,
and ends with scheduler_work_amounts [4, 300], whose product times the
harness work amount is 1200, not the 300 elements of the master shape. -/
theorem prepareParams_tail_counterexample :
    (prepareParamsTail [4, 100] [1, 1, 1, 1, 1, 300] 300 1).scheduler_work_amounts
      = [4, 300] ∧
    ¬((prepareParamsTail [4, 100] [1, 1, 1, 1, 1, 300] 300 1).harnessWorkAmount
        * (prepareParamsTail [4, 100] [1, 1, 1, 1, 1, 300] 300 1).scheduler_work_amounts.prod
      = ([1, 1, 1, 1, 1, 300] : List Nat).prod) := by
  refine ⟨by decide, by decide⟩

/-- C10, amended: provided every entry of the persistent
scheduler_work_amounts vector is 1 at entry (as on the first invocation, or
whenever the tile rank did not shrink), after the prepareParams tail the
trailing tileRank entries of the execution domain are 1,
scheduler_work_amounts holds exactly the original trailing extents padded
with leading 1s up to maxTileRank, and harnessWorkAmount times the product of
scheduler_work_amounts equals the total element count of the master shape. -/
theorem prepareParams_tail_invariant (prev exec : List Nat) (fullWork k : Nat)
    (hprev : ∀ x ∈ prev, x = 1) (hk : k ≤ maxTileRank)
    (hlen : maxTileRank ≤ exec.length) (hfull : fullWork = exec.prod) :
    (prepareParamsTail prev exec fullWork k).exec_domain
        = exec.take (exec.length - k) ++ List.replicate k 1 ∧
    (prepareParamsTail prev exec fullWork k).scheduler_work_amounts
        = List.replicate (maxTileRank - k) 1 ++ exec.drop (exec.length - k) ∧
    (prepareParamsTail prev exec fullWork k).harnessWorkAmount
        * (prepareParamsTail prev exec fullWork k).scheduler_work_amounts.prod
        = exec.prod := by
  have hres := resizeWorkAmounts_ones prev hprev
  have hke : k ≤ exec.reverse.length := by
    rw [List.length_reverse]; omega
  have hks : k ≤ (resizeWorkAmounts prev).reverse.length := by
    rw [hres, List.length_reverse, List.length_replicate]; omega
  have hloop := prepTailLoopRev_spec k exec.reverse (resizeWorkAmounts prev).reverse
    fullWork hke hks
  have hfst : (prepTailLoopRev k exec.reverse (resizeWorkAmounts prev).reverse fullWork).1
      = List.replicate k 1 ++ exec.reverse.drop k := by
    rw [hloop]
  have hsnd1 : (prepTailLoopRev k exec.reverse (resizeWorkAmounts prev).reverse fullWork).2.1
      = exec.reverse.take k ++ (resizeWorkAmounts prev).reverse.drop k := by
    rw [hloop]
  have hsnd2 : (prepTailLoopRev k exec.reverse (resizeWorkAmounts prev).reverse fullWork).2.2
      = (exec.reverse.take k).foldl (fun a b => a / b) fullWork := by
    rw [hloop]
  have hdropk : (exec.reverse.drop k).reverse = exec.take (exec.length - k) := by
    rw [List.drop_reverse, List.reverse_reverse]
  have htakek : (exec.reverse.take k).reverse = exec.drop (exec.length - k) := by
    rw [List.take_reverse, List.reverse_reverse]
  have htakek2 : exec.reverse.take k = (exec.drop (exec.length - k)).reverse := by
    rw [← htakek, List.reverse_reverse]
  have hsched : (prepareParamsTail prev exec fullWork k).scheduler_work_amounts
      = List.replicate (maxTileRank - k) 1 ++ exec.drop (exec.length - k) := by
    show (prepTailLoopRev k exec.reverse (resizeWorkAmounts prev).reverse fullWork).2.1.reverse
        = _
    rw [hsnd1, List.reverse_append, htakek, hres, List.reverse_replicate,
      List.drop_replicate, List.reverse_replicate]
  refine ⟨?_, hsched, ?_⟩
  · show (prepTailLoopRev k exec.reverse (resizeWorkAmounts prev).reverse fullWork).1.reverse
        = _
    rw [hfst, List.reverse_append, hdropk, List.reverse_replicate]
  · have hdvd : (exec.reverse.take k).prod ∣ fullWork := by
      rw [htakek2, List.prod_reverse, hfull]
      conv_rhs => rw [← List.take_append_drop (exec.length - k) exec]
      rw [List.prod_append]
      exact dvd_mul_left _ _
    have hmain := foldl_div_prod (exec.reverse.take k) fullWork hdvd
    have hharness : (prepareParamsTail prev exec fullWork k).harnessWorkAmount
        = (exec.reverse.take k).foldl (fun a b => a / b) fullWork := hsnd2
    rw [hharness, hsched, List.prod_append, List.prod_replicate, one_pow, Nat.one_mul,
      ← List.prod_reverse (exec.drop (exec.length - k)), ← htakek2, hmain, hfull]

/-- C10 witness: first invocation (scheduler_work_amounts entries all 1),
exec domain [1,1,1,1,4,100], tileRank 2: the domain ends in two 1s, the
scheduler work amounts become [4, 100] and harness times their product gives
the 400 elements. -/
theorem prepareParams_tail_invariant_witness :
    (prepareParamsTail [1, 1] [1, 1, 1, 1, 4, 100] 400 2).exec_domain
        = ([1, 1, 1, 1, 4, 100] : List Nat).take (([1, 1, 1, 1, 4, 100] : List Nat).length - 2)
          ++ List.replicate 2 1 ∧
    (prepareParamsTail [1, 1] [1, 1, 1, 1, 4, 100] 400 2).scheduler_work_amounts
        = List.replicate (maxTileRank - 2) 1
          ++ ([1, 1, 1, 1, 4, 100] : List Nat).drop (([1, 1, 1, 1, 4, 100] : List Nat).length - 2) ∧
    (prepareParamsTail [1, 1] [1, 1, 1, 1, 4, 100] 400 2).harnessWorkAmount
        * (prepareParamsTail [1, 1] [1, 1, 1, 1, 4, 100] 400 2).scheduler_work_amounts.prod
        = ([1, 1, 1, 1, 4, 100] : List Nat).prod :=
  prepareParams_tail_invariant [1, 1] [1, 1, 1, 1, 4, 100] 400 2 (by decide)
    (by decide) (by decide) (by decide)

end Snippets
